import Mathlib

/-!
Verification of the push-based streaming execution engine interface
(`cpp/src/arrow/compute/exec/exec_plan.h`): plan/node graph model,
validation, start/stop orchestration, per-edge sequence accounting,
completion aggregation, the factory registry and the generic node
construction entry point.

Only `ExecPlan::EmplaceNode` and `MakeExecNode` have their bodies in the
header; the remaining operations are declared there and specified by the
design document, so their behaviour is modelled from the spec (each such
definition says so in its doc comment).
-/

namespace ArrowExec

/-- Node handles are modelled as natural-number identifiers. -/
abbrev NodeId := Nat

/-- Modelled from the spec: the node graph owned by an `ExecPlan`.
`nodes` is the plan's owned set, `inputsOf n` the ordered predecessor list
declared by node `n` (the wiring), and `numOutputs n` the output arity the
node declares (`ExecNode::num_outputs`).  The successor ("outputs") sets are
derived from the input declarations, as the header populates `outputs_`
from other nodes' input lists. -/
structure Graph where
  nodes : List NodeId
  inputsOf : NodeId → List NodeId
  numOutputs : NodeId → Nat

/-- The successors of `n`: plan nodes that declare `n` among their inputs. -/
def outputsOf (g : Graph) (n : NodeId) : List NodeId :=
  g.nodes.filter (fun m => decide (n ∈ g.inputsOf m))

/-- Directed edge of the data-flow graph: `a` feeds `b` (`a` is an input of `b`). -/
def Edge (g : Graph) (a b : NodeId) : Prop :=
  a ∈ g.nodes ∧ b ∈ g.nodes ∧ a ∈ g.inputsOf b

/-- Executable edge test. -/
def edgeB (g : Graph) (a b : NodeId) : Bool :=
  g.nodes.contains a && g.nodes.contains b && (g.inputsOf b).contains a

theorem edgeB_iff (g : Graph) (a b : NodeId) : edgeB g a b = true ↔ Edge g a b := by
  simp [edgeB, Edge, and_assoc]

/-- A path from `a` to `b` whose intermediate vertices are listed in `ms`. -/
def pathVia (g : Graph) : List NodeId → NodeId → NodeId → Prop
  | [], a, b => Edge g a b
  | m :: ms, a, b => Edge g a m ∧ pathVia g ms m b

/-- A (nonempty) path exists from `a` to `b`. -/
def Reaches (g : Graph) (a b : NodeId) : Prop :=
  ∃ ms, pathVia g ms a b

/-- The edge relation has a cycle. -/
def HasCycle (g : Graph) : Prop :=
  ∃ n, Reaches g n n

/-- Bounded reachability: a path of at most `k` edges from `a` to `b`. -/
def reachB (g : Graph) : Nat → NodeId → NodeId → Bool
  | 0, _, _ => false
  | k + 1, a, b =>
    edgeB g a b || g.nodes.any (fun m => edgeB g a m && reachB g k m b)

theorem pathVia_append (g : Graph) (xs ys : List NodeId) (a v b : NodeId) :
    pathVia g (xs ++ v :: ys) a b ↔ pathVia g xs a v ∧ pathVia g ys v b := by
  induction xs generalizing a with
  | nil => simp [pathVia]
  | cons x xs ih => simp [pathVia, ih, and_assoc]

theorem pathVia_mem (g : Graph) (ms : List NodeId) (a b : NodeId)
    (h : pathVia g ms a b) : ∀ x ∈ a :: ms, x ∈ g.nodes := by
  induction ms generalizing a with
  | nil =>
    intro x hx
    rcases List.mem_singleton.mp hx with rfl
    exact h.1
  | cons m ms ih =>
    intro x hx
    rcases List.mem_cons.mp hx with rfl | hx
    · exact h.1.1
    · exact ih m h.2 x hx

/-- reachB is sound: a positive answer yields a path. -/
theorem reachB_sound (g : Graph) (k : Nat) (a b : NodeId)
    (h : reachB g k a b = true) : Reaches g a b := by
  induction k generalizing a with
  | zero => simp [reachB] at h
  | succ k ih =>
    simp only [reachB, Bool.or_eq_true, List.any_eq_true, Bool.and_eq_true] at h
    rcases h with h | ⟨m, _, hm, hr⟩
    · exact ⟨[], (edgeB_iff g a b).mp h⟩
    · obtain ⟨ms, hms⟩ := ih m hr
      exact ⟨m :: ms, (edgeB_iff g a m).mp hm, hms⟩

/-- reachB is complete for paths of bounded length. -/
theorem reachB_complete (g : Graph) (ms : List NodeId) (a b : NodeId) (k : Nat)
    (h : pathVia g ms a b) (hk : ms.length < k) : reachB g k a b = true := by
  induction ms generalizing a k with
  | nil =>
    match k, hk with
    | k + 1, _ =>
      simp only [reachB, Bool.or_eq_true]
      exact Or.inl ((edgeB_iff g a b).mpr h)
  | cons m ms ih =>
    match k, hk with
    | k + 1, hk =>
      simp only [reachB, Bool.or_eq_true, List.any_eq_true, Bool.and_eq_true]
      refine Or.inr ⟨m, (pathVia_mem g ms m b h.2 m (List.mem_cons_self m ms)),
        (edgeB_iff g a m).mpr h.1, ih m k h.2 (Nat.lt_of_succ_lt_succ hk)⟩

theorem exists_dup_split (l : List NodeId) (h : ¬ l.Nodup) :
    ∃ l₁ v l₂ l₃, l = l₁ ++ v :: (l₂ ++ v :: l₃) := by
  induction l with
  | nil => simp at h
  | cons a t ih =>
    by_cases ha : a ∈ t
    · obtain ⟨s, u, rfl⟩ := List.append_of_mem ha
      exact ⟨[], a, s, u, by simp⟩
    · have ht : ¬ t.Nodup := by
        intro hnd
        exact h (List.nodup_cons.mpr ⟨ha, hnd⟩)
      obtain ⟨l₁, v, l₂, l₃, rfl⟩ := ih ht
      exact ⟨a :: l₁, v, l₂, l₃, by simp⟩

/-- Any cycle contains a cycle of fewer than `g.nodes.length` intermediate
vertices (pigeonhole on the vertex list). -/
theorem cycle_shorten (g : Graph) :
    ∀ (len : Nat) (ms : List NodeId) (a : NodeId), ms.length = len →
      pathVia g ms a a →
      ∃ b ms2, pathVia g ms2 b b ∧ ms2.length < g.nodes.length := by
  intro len
  induction len using Nat.strong_induction_on with
  | _ len ih =>
    intro ms a hlen h
    by_cases hdup : (a :: ms).Nodup
    · refine ⟨a, ms, h, ?_⟩
      have hsub : a :: ms ⊆ g.nodes := fun x hx => pathVia_mem g ms a a h x hx
      have := (List.subperm_of_subset hdup hsub).length_le
      simpa [List.length_cons] using this
    · obtain ⟨l₁, v, l₂, l₃, hsplit⟩ := exists_dup_split (a :: ms) hdup
      match l₁, hsplit with
      | [], hsplit =>
        have hv : a = v := by
          simpa using congrArg (List.head? ·) hsplit
        have hms : ms = l₂ ++ v :: l₃ := by
          simpa using congrArg List.tail hsplit
        rw [hms, hv] at h
        have h2 := ((pathVia_append g l₂ l₃ v v v).mp h).1
        have hlt : l₂.length < len := by
          have := congrArg List.length hms
          simp at this
          omega
        exact ih l₂.length hlt l₂ v rfl h2
      | w :: l₁, hsplit =>
        have hms : ms = l₁ ++ v :: (l₂ ++ v :: l₃) := by
          simpa using congrArg List.tail hsplit
        rw [hms] at h
        have h2 := (pathVia_append g l₁ (l₂ ++ v :: l₃) a v a).mp h
        have h3 := ((pathVia_append g l₂ l₃ v v a).mp h2.2).1
        have hlt : l₂.length < len := by
          have := congrArg List.length hms
          simp at this
          omega
        exact ih l₂.length hlt l₂ v rfl h3

/-- A graph has a cycle iff some node reaches itself
within `g.nodes.length` steps. -/
theorem hasCycle_iff_reachB (g : Graph) :
    HasCycle g ↔ ∃ n ∈ g.nodes, reachB g g.nodes.length n n = true := by
  constructor
  · rintro ⟨n, ms, h⟩
    obtain ⟨b, ms2, h2, hlt⟩ := cycle_shorten g ms.length ms n rfl h
    refine ⟨b, pathVia_mem g ms2 b b h2 b (List.mem_cons_self b ms2), ?_⟩
    exact reachB_complete g ms2 b b g.nodes.length h2 hlt
  · rintro ⟨n, _, h⟩
    exact ⟨n, reachB_sound g g.nodes.length n n h⟩

/-! ### Plan validation (`ExecPlan::Validate`) -/

/-- The abstract per-node structural condition of the spec: the declared
output arity equals the number of distinct successor nodes referencing this
node as an input, and every declared input belongs to this plan. -/
def NodeOk (g : Graph) (n : NodeId) : Prop :=
  g.numOutputs n = (g.nodes.toFinset.filter (fun m => n ∈ g.inputsOf m)).card ∧
  ∀ i ∈ g.inputsOf n, i ∈ g.nodes

/-- Executable structural check for one node. -/
def nodeCheckB (g : Graph) (n : NodeId) : Bool :=
  (g.numOutputs n == (outputsOf g n).length) &&
    (g.inputsOf n).all (fun i => g.nodes.contains i)

/-- Modelled from the spec: `ExecPlan::Validate` (body not in the header).
Checks, for every node, that the output arity matches the declared
consumers, that every declared input belongs to this plan, and that the
edge relation is acyclic; fails with a validation error identifying the
offending node. -/
def Validate (g : Graph) : Except NodeId Unit :=
  match g.nodes.find? (fun n => !(nodeCheckB g n)) with
  | some n => .error n
  | none =>
    match g.nodes.find? (fun n => reachB g g.nodes.length n n) with
    | some n => .error n
    | none => .ok ()

theorem outputsOf_length_eq_card (g : Graph) (n : NodeId) (hnd : g.nodes.Nodup) :
    (outputsOf g n).length =
      (g.nodes.toFinset.filter (fun m => n ∈ g.inputsOf m)).card := by
  have h1 : (outputsOf g n).Nodup := hnd.filter _
  rw [← List.toFinset_card_of_nodup h1]
  congr 1
  ext m
  simp [outputsOf]

theorem nodeCheckB_iff (g : Graph) (n : NodeId) (hnd : g.nodes.Nodup) :
    nodeCheckB g n = true ↔ NodeOk g n := by
  simp [nodeCheckB, NodeOk, outputsOf_length_eq_card g n hnd]

theorem validate_ok_iff_checks (g : Graph) :
    Validate g = .ok () ↔
      (∀ n ∈ g.nodes, nodeCheckB g n = true) ∧
      (∀ n ∈ g.nodes, reachB g g.nodes.length n n = false) := by
  unfold Validate
  rcases hfind : g.nodes.find? (fun n => !(nodeCheckB g n)) with _ | p
  · rcases hfind2 : g.nodes.find? (fun n => reachB g g.nodes.length n n) with _ | p
    · rw [List.find?_eq_none] at hfind
      rw [List.find?_eq_none] at hfind2
      refine iff_of_true rfl ⟨fun n hn => ?_, fun n hn => ?_⟩
      · simpa using hfind n hn
      · simpa using hfind2 n hn
    · refine iff_of_false (by simp) ?_
      rintro ⟨-, h2⟩
      have hm := List.find?_some hfind2
      rw [h2 p (List.mem_of_find?_eq_some hfind2)] at hm
      cases hm
  · refine iff_of_false (by simp) ?_
    rintro ⟨h1, -⟩
    have hm := List.find?_some hfind
    rw [Bool.not_eq_eq_eq_not, Bool.not_true] at hm
    rw [h1 p (List.mem_of_find?_eq_some hfind)] at hm
    cases hm

/-- Claim C5: `ExecPlan::Validate` succeeds iff every node's declared
output arity equals the number of distinct successors referencing it as an
input, every declared input belongs to the plan, and the edge relation is
acyclic; on failure it returns an error identifying an offending node. -/
theorem claim_C5_validate (g : Graph) (hnd : g.nodes.Nodup) :
    (Validate g = .ok () ↔ ((∀ n ∈ g.nodes, NodeOk g n) ∧ ¬ HasCycle g)) ∧
    (∀ n, Validate g = .error n →
      n ∈ g.nodes ∧ (¬ NodeOk g n ∨ Reaches g n n)) := by
  constructor
  · rw [validate_ok_iff_checks]
    constructor
    · rintro ⟨h1, h2⟩
      refine ⟨fun n hn => (nodeCheckB_iff g n hnd).mp (h1 n hn), ?_⟩
      rw [hasCycle_iff_reachB]
      rintro ⟨n, hn, hr⟩
      rw [h2 n hn] at hr
      cases hr
    · rintro ⟨h1, h2⟩
      rw [hasCycle_iff_reachB] at h2
      push_neg at h2
      refine ⟨fun n hn => (nodeCheckB_iff g n hnd).mpr (h1 n hn), ?_⟩
      intro n hn
      have := h2 n hn
      simpa using this
  · intro n herr
    unfold Validate at herr
    rcases hfind : g.nodes.find? (fun m => !(nodeCheckB g m)) with _ | p
    · rw [hfind] at herr
      rcases hfind2 : g.nodes.find? (fun m => reachB g g.nodes.length m m) with _ | p
      · rw [hfind2] at herr
        cases herr
      · rw [hfind2] at herr
        have hmn : p = n := by injection herr
        rw [← hmn]
        have hp : reachB g g.nodes.length p p = true := by
          have := List.find?_some hfind2
          simpa using this
        exact ⟨List.mem_of_find?_eq_some hfind2,
          Or.inr (reachB_sound g g.nodes.length p p hp)⟩
    · rw [hfind] at herr
      have hmn : p = n := by injection herr
      rw [← hmn]
      refine ⟨List.mem_of_find?_eq_some hfind, Or.inl ?_⟩
      intro hok
      have hm := List.find?_some hfind
      simp only [Bool.not_eq_true'] at hm
      rw [(nodeCheckB_iff g p hnd).mpr hok] at hm
      cases hm

/-- A small concrete plan: node 0 feeds node 1. -/
def gEx : Graph :=
  { nodes := [0, 1]
    inputsOf := fun n => if n = 1 then [0] else []
    numOutputs := fun n => if n = 0 then 1 else 0 }

theorem claim_C5_validate_witness :
    (∀ n ∈ gEx.nodes, NodeOk gEx n) ∧ ¬ HasCycle gEx :=
  ((claim_C5_validate gEx (by decide)).1).mp (by rfl)

/-! ### Start/stop orchestration (`ExecPlan::StartProducing` / `StopProducing`) -/

/-- Modelled from the spec: the order in which `ExecPlan::StartProducing`
starts the nodes — reverse topological, so a node is started only after all
of its outputs have started.  Repeatedly emits a node all of whose outputs
were already emitted; `none` when the graph admits no such order. -/
def startOrderAux (g : Graph) :
    Nat → List NodeId → List NodeId → Option (List NodeId)
  | 0, acc, remaining => if remaining.isEmpty then some acc.reverse else none
  | fuel + 1, acc, remaining =>
    match remaining.find?
        (fun n => (outputsOf g n).all (fun m => acc.contains m)) with
    | some n => startOrderAux g fuel (n :: acc) (remaining.erase n)
    | none => if remaining.isEmpty then some acc.reverse else none

/-- The node order used by `ExecPlan::StartProducing`. -/
def startOrder (g : Graph) : Option (List NodeId) :=
  startOrderAux g g.nodes.length [] g.nodes

/-- Modelled from the spec: `ExecPlan::StopProducing` stops nodes in
topological order, the reverse of the start order. -/
def stopOrder (g : Graph) : Option (List NodeId) :=
  (startOrder g).map List.reverse

/-- Emission-order invariant: each listed node's outputs all appear later
in the list (i.e. were emitted earlier, the list being most-recent-first). -/
def revOrdered (g : Graph) : List NodeId → Prop
  | [] => True
  | n :: rest => (∀ m ∈ outputsOf g n, m ∈ rest) ∧ revOrdered g rest

theorem revOrdered_split (g : Graph) (xs : List NodeId) (n : NodeId)
    (ys : List NodeId) (h : revOrdered g (xs ++ n :: ys)) :
    ∀ m ∈ outputsOf g n, m ∈ ys := by
  induction xs with
  | nil => exact h.1
  | cons x xs ih => exact ih h.2

theorem startOrderAux_spec (g : Graph) (fuel : Nat) :
    ∀ (acc remaining : List NodeId), revOrdered g acc →
      ∀ L, startOrderAux g fuel acc remaining = some L →
        ∃ acc2, L = acc2.reverse ∧ revOrdered g acc2 ∧
          acc2.Perm (remaining ++ acc) := by
  induction fuel with
  | zero =>
    intro acc remaining hrev L h
    rw [startOrderAux] at h
    by_cases he : remaining.isEmpty
    · rw [if_pos he] at h
      injection h with hL
      refine ⟨acc, hL.symm, hrev, ?_⟩
      rw [List.isEmpty_iff.mp he]
      simp
    · rw [if_neg he] at h
      cases h
  | succ fuel ih =>
    intro acc remaining hrev L h
    rw [startOrderAux] at h
    rcases hfind : remaining.find?
        (fun n => (outputsOf g n).all (fun m => acc.contains m)) with _ | n
    · rw [hfind] at h
      by_cases he : remaining.isEmpty
      · rw [if_pos he] at h
        injection h with hL
        refine ⟨acc, hL.symm, hrev, ?_⟩
        rw [List.isEmpty_iff.mp he]
        simp
      · rw [if_neg he] at h
        cases h
    · rw [hfind] at h
      have hn : n ∈ remaining := List.mem_of_find?_eq_some hfind
      have hp := List.find?_some hfind
      have hout : ∀ m ∈ outputsOf g n, m ∈ acc := by
        simpa using hp
      have hrev2 : revOrdered g (n :: acc) := ⟨hout, hrev⟩
      obtain ⟨acc2, hL, hrevA, hperm⟩ := ih (n :: acc) (remaining.erase n) hrev2 L h
      refine ⟨acc2, hL, hrevA, ?_⟩
      have h1 : (remaining.erase n ++ n :: acc).Perm
          (n :: (remaining.erase n ++ acc)) := List.perm_middle
      have h2 : (remaining ++ acc).Perm (n :: (remaining.erase n ++ acc)) := by
        have := (List.perm_cons_erase hn).append_right acc
        simpa using this
      exact (hperm.trans h1).trans h2.symm

/-- Claim C1: when a plan's start succeeds (the start order exists),
`ExecPlan::StartProducing` invokes each node strictly after all of that
node's successors, and `ExecPlan::StopProducing` stops each node strictly
before all of its successors; the start order covers exactly the plan's
nodes and the stop order is its reverse. -/
theorem claim_C1_start_stop_order (g : Graph) (L : List NodeId)
    (h : startOrder g = some L) :
    L.Perm g.nodes ∧
    (∀ l₁ n l₂, L = l₁ ++ n :: l₂ → ∀ m ∈ outputsOf g n, m ∈ l₁) ∧
    (∀ SL, stopOrder g = some SL →
      ∀ l₁ n l₂, SL = l₁ ++ n :: l₂ → ∀ m ∈ outputsOf g n, m ∈ l₂) := by
  obtain ⟨acc2, hL, hrev, hperm⟩ :=
    startOrderAux_spec g g.nodes.length [] g.nodes trivial L h
  rw [List.append_nil] at hperm
  have hstart : ∀ l₁ n l₂, L = l₁ ++ n :: l₂ → ∀ m ∈ outputsOf g n, m ∈ l₁ := by
    intro l₁ n l₂ hsplit m hm
    have hacc : acc2 = l₂.reverse ++ n :: l₁.reverse := by
      have : acc2 = L.reverse := by rw [hL, List.reverse_reverse]
      rw [this, hsplit]
      simp
    rw [hacc] at hrev
    have := revOrdered_split g l₂.reverse n l₁.reverse hrev m hm
    simpa using this
  refine ⟨?_, hstart, ?_⟩
  · rw [hL]
    exact (List.reverse_perm acc2).trans hperm
  · intro SL hSL l₁ n l₂ hsplit m hm
    have hSLr : SL = L.reverse := by
      unfold stopOrder at hSL
      rw [h] at hSL
      injection hSL with h2
      exact h2.symm
    have hLsplit : L = l₂.reverse ++ n :: l₁.reverse := by
      have : L = SL.reverse := by rw [hSLr, List.reverse_reverse]
      rw [this, hsplit]
      simp
    have := hstart l₂.reverse n l₁.reverse hLsplit m hm
    simpa using this

theorem claim_C1_start_stop_order_witness :
    ([1, 0] : List NodeId).Perm gEx.nodes ∧
    (∀ l₁ n l₂, ([1, 0] : List NodeId) = l₁ ++ n :: l₂ →
      ∀ m ∈ outputsOf gEx n, m ∈ l₁) ∧
    (∀ SL, stopOrder gEx = some SL →
      ∀ l₁ n l₂, SL = l₁ ++ n :: l₂ → ∀ m ∈ outputsOf gEx n, m ∈ l₂) :=
  claim_C1_start_stop_order gEx [1, 0] (by rfl)

/-! ### Partially failing start (`ExecPlan::StartProducing` error path) -/

/-- Lifecycle status of a node as orchestrated by the plan. -/
inductive NStatus
  | created
  | started
  | stopped
deriving DecidableEq

/-- Modelled from the spec: `ExecPlan::StartProducing` walks the start
order, invoking each node's `StartProducing`; at the first failure it stops
and surfaces that error.  Returns (nodes whose start was invoked, nodes
successfully started, overall result). -/
def runStart (st : NodeId → Except String Unit) :
    List NodeId → List NodeId × List NodeId × Except String Unit
  | [] => ([], [], .ok ())
  | n :: rest =>
    match st n with
    | .ok _ =>
      let r := runStart st rest
      (n :: r.1, n :: r.2.1, r.2.2)
    | .error e => ([n], [], .error e)

/-- Modelled from the spec: `ExecPlan::StopProducing` applied to a possibly
partially-started plan state: every started node is stopped; nodes that
never received `StartProducing` are left untouched. -/
def stopAllNodes (s : NodeId → NStatus) : NodeId → NStatus :=
  fun n => if s n = NStatus.started then NStatus.stopped else s n

theorem runStart_fail (st : NodeId → Except String Unit) (l₁ l₂ : List NodeId)
    (n : NodeId) (e : String) (hok : ∀ m ∈ l₁, st m = .ok ())
    (hfail : st n = .error e) :
    runStart st (l₁ ++ n :: l₂) = (l₁ ++ [n], l₁, .error e) := by
  induction l₁ with
  | nil => simp [runStart, hfail]
  | cons a l ih =>
    have ha : st a = .ok () := hok a (List.mem_cons_self a l)
    have ih2 := ih (fun m hm => hok m (List.mem_cons_of_mem a hm))
    simp [runStart, ha, ih2]

/-- Claim C7: if some node's `StartProducing` fails during
`ExecPlan::StartProducing`, the plan surfaces that failure; nodes after the
failing one in the start order are never invoked, nodes before it remain
started, and `ExecPlan::StopProducing` is safe from this partially-started
state (it terminates every started node, touches nothing else, and is
idempotent). -/
theorem claim_C7_partial_start_failure (g : Graph)
    (st : NodeId → Except String Unit) (L l₁ l₂ : List NodeId) (n : NodeId)
    (e : String) (_hL : startOrder g = some L) (hsplit : L = l₁ ++ n :: l₂)
    (hok : ∀ m ∈ l₁, st m = .ok ()) (hfail : st n = .error e) :
    runStart st L = (l₁ ++ [n], l₁, .error e) ∧
    (∀ m,
      stopAllNodes (fun x => if l₁.contains x then .started else .created) m =
        (if l₁.contains m then NStatus.stopped else NStatus.created)) ∧
    (∀ s : NodeId → NStatus,
      (∀ m, stopAllNodes (stopAllNodes s) m = stopAllNodes s m) ∧
      (∀ m, stopAllNodes s m ≠ NStatus.started)) := by
  refine ⟨hsplit ▸ runStart_fail st l₁ l₂ n e hok hfail, ?_, ?_⟩
  · intro m
    by_cases hm : m ∈ l₁ <;> simp [stopAllNodes, hm]
  · intro s
    constructor
    · intro m
      unfold stopAllNodes
      by_cases hs : s m = NStatus.started <;> simp [hs]
    · intro m
      unfold stopAllNodes
      by_cases hs : s m = NStatus.started <;> simp [hs]

theorem claim_C7_partial_start_failure_witness :
    runStart (fun x => if x = 1 then .ok () else .error "boom") [1, 0] =
      ([1, 0], [1], .error "boom") ∧
    (∀ m,
      stopAllNodes (fun x => if [1].contains x then .started else .created) m =
        (if [1].contains m then NStatus.stopped else NStatus.created)) ∧
    (∀ s : NodeId → NStatus,
      (∀ m, stopAllNodes (stopAllNodes s) m = stopAllNodes s m) ∧
      (∀ m, stopAllNodes s m ≠ NStatus.started)) :=
  claim_C7_partial_start_failure gEx
    (fun x => if x = 1 then .ok () else .error "boom") [1, 0] [1] [] 0 "boom"
    (by rfl) (by rfl) (by intro m hm; simp at hm; subst hm; rfl) (by rfl)

/-! ### Node lifecycle: idempotent stop (`ExecNode::StopProducing`) -/

/-- Modelled from the spec: the lifecycle state of a single node, tracking
a successful start, whether production has stopped, and whether the
`finished()` transition has been delivered. -/
structure NodeLifeState where
  startedOk : Bool
  stopped : Bool
  finishedDelivered : Bool
deriving DecidableEq

/-- Modelled from the spec: the zero-argument `ExecNode::StopProducing`.
A first call stops production and delivers the finished transition; any
further call leaves the terminal state unchanged.  Returns the new state
and the number of finished transitions this call delivered. -/
def stopProducing (s : NodeLifeState) : NodeLifeState × Nat :=
  if s.stopped then (s, 0)
  else ({ s with stopped := true, finishedDelivered := true },
    if s.finishedDelivered then 0 else 1)

/-- `k` successive calls to `stopProducing`, with the total number of
finished transitions delivered. -/
def stopProducingN : Nat → NodeLifeState → NodeLifeState × Nat
  | 0, s => (s, 0)
  | k + 1, s =>
    let r := stopProducing s
    let r2 := stopProducingN k r.1
    (r2.1, r.2 + r2.2)

theorem stopProducingN_stopped (k : Nat) (s : NodeLifeState)
    (h : s.stopped = true) : stopProducingN k s = (s, 0) := by
  induction k with
  | zero => rfl
  | succ k ih => simp [stopProducingN, stopProducing, h, ih]

/-- Claim C3: after a successful start, calling the zero-argument
`StopProducing` any number (at least one) of times produces the same
terminal state as calling it once, and the finished transition is
delivered exactly once, never twice. -/
theorem claim_C3_stop_idempotent (s : NodeLifeState) (k : Nat)
    (_hstart : s.startedOk = true) (hstop : s.stopped = false)
    (hfin : s.finishedDelivered = false) (hk : 1 ≤ k) :
    stopProducingN k s = ((stopProducing s).1, 1) ∧
    (stopProducingN k s).1.stopped = true ∧
    (stopProducingN k s).2 = 1 := by
  match k, hk with
  | k + 1, _ =>
    have h1 : stopProducing s =
        ({ s with stopped := true, finishedDelivered := true }, 1) := by
      simp [stopProducing, hstop, hfin]
    have h2 := stopProducingN_stopped k
      { s with stopped := true, finishedDelivered := true } rfl
    refine ⟨?_, ?_, ?_⟩ <;> simp [stopProducingN, h1, h2]

theorem claim_C3_stop_idempotent_witness :
    stopProducingN 3 ⟨true, false, false⟩ =
      ((stopProducing ⟨true, false, false⟩).1, 1) ∧
    (stopProducingN 3 ⟨true, false, false⟩).1.stopped = true ∧
    (stopProducingN 3 ⟨true, false, false⟩).2 = 1 :=
  claim_C3_stop_idempotent ⟨true, false, false⟩ 3 rfl rfl rfl (by decide)

/-! ### Per-edge sequence accounting (`InputReceived` / `InputFinished`) -/

/-- State of one input edge of a node: the sequence numbers received so
far, the declared total batch count (once `InputFinished` was called), and
whether the drained transition has fired. -/
structure EdgeState where
  receivedSeqs : List Nat
  seqStop : Option Nat
  drained : Bool
deriving DecidableEq

def initEdge : EdgeState := ⟨[], none, false⟩

/-- The edge is fully drained: the total is fixed at `t` and every
sequence number `0..t-1` has arrived. -/
def drainedNow (s : EdgeState) : Bool :=
  match s.seqStop with
  | some t => (List.range t).all (fun q => s.receivedSeqs.contains q)
  | none => false

/-- An upstream call on one edge: `InputReceived` with a sequence number,
or `InputFinished` with the total batch count. -/
inductive EdgeEvent
  | receive (seq : Nat)
  | finish (seqStop : Nat)
deriving DecidableEq

/-- The field update an upstream call performs. -/
def updateEdge (s : EdgeState) : EdgeEvent → EdgeState
  | .receive q => { s with receivedSeqs := q :: s.receivedSeqs }
  | .finish t => { s with seqStop := some t }

/-- Modelled from the spec: processing one upstream call (`InputReceived`
records the batch's sequence number, `InputFinished` fixes the total); the
drained transition fires (count 1) exactly when the edge first becomes
fully drained. -/
def edgeStep (s : EdgeState) (ev : EdgeEvent) : EdgeState × Nat :=
  if drainedNow (updateEdge s ev) && !(updateEdge s ev).drained
  then ({ updateEdge s ev with drained := true }, 1)
  else (updateEdge s ev, 0)

/-- Process a sequence of upstream calls, totalling the drained
transitions fired. -/
def edgeRun (s : EdgeState) : List EdgeEvent → EdgeState × Nat
  | [] => (s, 0)
  | ev :: evs =>
    let r := edgeStep s ev
    let r2 := edgeRun r.1 evs
    (r2.1, r.2 + r2.2)

theorem updateEdge_drained (s : EdgeState) (ev : EdgeEvent) :
    (updateEdge s ev).drained = s.drained := by
  cases ev <;> rfl

theorem edgeStep_drained_toNat (s : EdgeState) (ev : EdgeEvent) :
    (edgeStep s ev).1.drained.toNat = s.drained.toNat + (edgeStep s ev).2 := by
  unfold edgeStep
  by_cases h : (drainedNow (updateEdge s ev) && !(updateEdge s ev).drained) = true
  · rw [if_pos h]
    rcases Bool.and_eq_true .. |>.mp h with ⟨-, h2⟩
    rw [Bool.not_eq_true'] at h2
    rw [updateEdge_drained] at h2
    simp [h2]
  · rw [if_neg h]
    simp [updateEdge_drained]

theorem edgeRun_drained_toNat (evs : List EdgeEvent) : ∀ (s : EdgeState),
    (edgeRun s evs).1.drained.toNat = s.drained.toNat + (edgeRun s evs).2 := by
  induction evs with
  | nil => intro s; simp [edgeRun]
  | cons ev evs ih =>
    intro s
    have h1 := edgeStep_drained_toNat s ev
    have h2 := ih (edgeStep s ev).1
    simp only [edgeRun]
    omega

theorem edgeStep_receivedSeqs (s : EdgeState) (ev : EdgeEvent) :
    (edgeStep s ev).1.receivedSeqs = (updateEdge s ev).receivedSeqs := by
  unfold edgeStep
  split <;> rfl

theorem edgeStep_seqStop (s : EdgeState) (ev : EdgeEvent) :
    (edgeStep s ev).1.seqStop = (updateEdge s ev).seqStop := by
  unfold edgeStep
  split <;> rfl

theorem edgeRun_receivedSeqs_mem (evs : List EdgeEvent) : ∀ (s : EdgeState)
    (q : Nat), EdgeEvent.receive q ∈ evs ∨ q ∈ s.receivedSeqs →
      q ∈ (edgeRun s evs).1.receivedSeqs := by
  induction evs with
  | nil =>
    intro s q h
    rcases h with h | h
    · cases h
    · simpa [edgeRun] using h
  | cons ev evs ih =>
    intro s q h
    simp only [edgeRun]
    apply ih
    rcases h with h | h
    · rcases List.mem_cons.mp h with rfl | h
      · right
        rw [edgeStep_receivedSeqs]
        simp [updateEdge]
      · exact Or.inl h
    · right
      rw [edgeStep_receivedSeqs]
      cases ev <;> simp [updateEdge, h]

theorem edgeRun_seqStop (evs : List EdgeEvent) : ∀ (s : EdgeState) (t : Nat),
    (∀ u, EdgeEvent.finish u ∈ evs → u = t) →
    (EdgeEvent.finish t ∈ evs ∨ s.seqStop = some t) →
    (edgeRun s evs).1.seqStop = some t := by
  induction evs with
  | nil =>
    intro s t _ h
    rcases h with h | h
    · cases h
    · simpa [edgeRun] using h
  | cons ev evs ih =>
    intro s t hall h
    simp only [edgeRun]
    apply ih _ _ (fun u hu => hall u (List.mem_cons_of_mem ev hu))
    cases ev with
    | receive q =>
      rcases h with h | h
      · rcases List.mem_cons.mp h with h | h
        · cases h
        · exact Or.inl h
      · right
        rw [edgeStep_seqStop]
        simpa [updateEdge] using h
    | finish u =>
      right
      have hu : u = t := hall u (List.mem_cons_self _ _)
      rw [edgeStep_seqStop]
      simp [updateEdge, hu]

theorem edgeStep_establishes (s : EdgeState) (ev : EdgeEvent)
    (h : drainedNow (edgeStep s ev).1 = true) : (edgeStep s ev).1.drained = true := by
  unfold edgeStep at h ⊢
  by_cases hc : (drainedNow (updateEdge s ev) && !(updateEdge s ev).drained) = true
  · rw [if_pos hc]
  · rw [if_neg hc] at h ⊢
    simp only [Bool.and_eq_true, Bool.not_eq_true', not_and] at hc
    have h2 := hc h
    cases hdr : (updateEdge s ev).drained
    · exact absurd hdr h2
    · rfl

theorem edgeRun_establishes (evs : List EdgeEvent) (hne : evs ≠ []) :
    ∀ (s : EdgeState), drainedNow (edgeRun s evs).1 = true →
      (edgeRun s evs).1.drained = true := by
  induction evs with
  | nil => cases hne rfl
  | cons ev evs ih =>
    intro s h
    cases evs with
    | nil =>
      simp only [edgeRun] at h ⊢
      exact edgeStep_establishes s ev h
    | cons ev2 evs2 =>
      simp only [edgeRun] at h ⊢
      exact ih (by simp) (edgeStep s ev).1 h

/-- Claim C4: once `InputFinished(input, t)` has been called and the `t`
batches bearing sequence numbers `0..t-1` have all arrived via
`InputReceived` — in any arrival order — the edge is fully drained and the
drained transition has fired exactly once; on no event sequence does it
fire more than once. -/
theorem claim_C4_sequence_accounting (t : Nat) (evs : List EdgeEvent)
    (hperm : evs.Perm
      ((List.range t).map EdgeEvent.receive ++ [EdgeEvent.finish t])) :
    (edgeRun initEdge evs).1.drained = true ∧
    (edgeRun initEdge evs).2 = 1 ∧
    (∀ evs2 : List EdgeEvent, (edgeRun initEdge evs2).2 ≤ 1) := by
  have hbound : ∀ evs2 : List EdgeEvent, (edgeRun initEdge evs2).2 ≤ 1 := by
    intro evs2
    have := edgeRun_drained_toNat evs2 initEdge
    have hle : ((edgeRun initEdge evs2).1.drained.toNat) ≤ 1 := Bool.toNat_le _
    have h0 : initEdge.drained.toNat = 0 := rfl
    omega
  have hfin : EdgeEvent.finish t ∈ evs := hperm.mem_iff.mpr (by simp)
  have hall : ∀ u, EdgeEvent.finish u ∈ evs → u = t := by
    intro u hu
    have := hperm.mem_iff.mp hu
    simp only [List.mem_append, List.mem_map, List.mem_singleton] at this
    rcases this with ⟨q, -, hq⟩ | h
    · cases hq
    · injection h

  have hrecv : ∀ q, q < t → EdgeEvent.receive q ∈ evs := by
    intro q hq
    apply hperm.mem_iff.mpr
    simp only [List.mem_append, List.mem_map]
    exact Or.inl ⟨q, List.mem_range.mpr hq, rfl⟩
  have hstop := edgeRun_seqStop evs initEdge t hall (Or.inl hfin)
  have hmem : ∀ q, q < t → q ∈ (edgeRun initEdge evs).1.receivedSeqs := by
    intro q hq
    exact edgeRun_receivedSeqs_mem evs initEdge q (Or.inl (hrecv q hq))
  have hnow : drainedNow (edgeRun initEdge evs).1 = true := by
    unfold drainedNow
    rw [hstop]
    rw [List.all_eq_true]
    intro q hq
    simpa using hmem q (List.mem_range.mp hq)
  have hne : evs ≠ [] := by
    intro he
    rw [he] at hfin
    cases hfin
  have hdr := edgeRun_establishes evs hne initEdge hnow
  refine ⟨hdr, ?_, hbound⟩
  have hcount := edgeRun_drained_toNat evs initEdge
  rw [hdr] at hcount
  have h0 : initEdge.drained.toNat = 0 := rfl
  have h1 : (true : Bool).toNat = 1 := rfl
  omega

theorem claim_C4_sequence_accounting_witness :
    (edgeRun initEdge
      [EdgeEvent.receive 1, EdgeEvent.finish 2, EdgeEvent.receive 0]).1.drained
      = true ∧
    (edgeRun initEdge
      [EdgeEvent.receive 1, EdgeEvent.finish 2, EdgeEvent.receive 0]).2 = 1 ∧
    (∀ evs2 : List EdgeEvent, (edgeRun initEdge evs2).2 ≤ 1) :=
  claim_C4_sequence_accounting 2
    [EdgeEvent.receive 1, EdgeEvent.finish 2, EdgeEvent.receive 0] (by decide)

/-! ### Completion aggregation (`ExecPlan::finished`) -/

/-- Modelled from the spec: the plan-wide completion future.  `pending`
counts the nodes whose `finished()` has not yet resolved, `firstError` the
first error observed across nodes, and `resolved` the plan future itself:
`none` while pending, `some st` once resolved with overall status `st`
(status `none` meaning success). -/
structure AggState where
  pending : Nat
  firstError : Option String
  resolved : Option (Option String)
deriving DecidableEq

def aggInit (n : Nat) : AggState := ⟨n, none, none⟩

/-- Keep the first error: an already-recorded error wins. -/
def firstOf (fe st : Option String) : Option String :=
  match fe with
  | some e => some e
  | none => st

/-- One node's `finished()` resolving with status `st` (none = success):
record the first error, decrement the pending count, and resolve the
plan's future when the last node resolves. -/
def aggStep (s : AggState) (st : Option String) : AggState :=
  { pending := s.pending - 1
    firstError := firstOf s.firstError st
    resolved :=
      if s.pending - 1 = 0 then some (firstOf s.firstError st) else s.resolved }

def aggRun (s : AggState) : List (Option String) → AggState
  | [] => s
  | st :: rest => aggRun (aggStep s st) rest

theorem firstOf_assoc (a b c : Option String) :
    firstOf (firstOf a b) c = firstOf a (firstOf b c) := by
  cases a <;> cases b <;> rfl

theorem findSome?_id_cons (st : Option String) (rest : List (Option String)) :
    (st :: rest).findSome? id = firstOf st (rest.findSome? id) := by
  cases st <;> simp [List.findSome?_cons, firstOf, id]

theorem aggRun_firstError (evs : List (Option String)) : ∀ s : AggState,
    (aggRun s evs).firstError = firstOf s.firstError (evs.findSome? id) := by
  induction evs with
  | nil =>
    intro s
    cases h : s.firstError <;> simp [aggRun, firstOf, h]
  | cons st rest ih =>
    intro s
    simp only [aggRun]
    rw [ih, findSome?_id_cons, ← firstOf_assoc]
    rfl

theorem aggRun_resolved_of_lt (evs : List (Option String)) : ∀ s : AggState,
    evs.length < s.pending → (aggRun s evs).resolved = s.resolved := by
  induction evs with
  | nil => intro s _; rfl
  | cons st rest ih =>
    intro s h
    simp only [aggRun]
    rw [ih]
    · have hne : s.pending - 1 ≠ 0 := by
        simp only [List.length_cons] at h
        omega
      simp [aggStep, hne]
    · simp only [List.length_cons] at h
      simp only [aggStep]
      omega

theorem aggRun_resolves (evs : List (Option String)) : ∀ s : AggState,
    evs.length = s.pending → 0 < s.pending →
    (aggRun s evs).resolved = some ((aggRun s evs).firstError) := by
  induction evs with
  | nil =>
    intro s h hp
    rw [← h] at hp
    cases hp
  | cons st rest ih =>
    intro s h hp
    simp only [List.length_cons] at h
    cases rest with
    | nil =>
      simp only [List.length_nil] at h
      have h1 : s.pending - 1 = 0 := by omega
      simp [aggRun, aggStep, h1]
    | cons st2 rest2 =>
      simp only [aggRun] at ih ⊢
      simp only [List.length_cons] at h
      apply ih
      · simp only [aggStep, List.length_cons]
        omega
      · simp only [aggStep]
        omega

/-- Claim C2: for a plan of `n` nodes whose `finished()` futures resolve in
the order given by `events` (each status `none` for success, `some e` for
an error), the plan's `finished()` is unresolved while any node is pending
and resolves exactly when the last node has resolved, carrying the first
error observed, or success when there was none. -/
theorem claim_C2_completion_aggregation (n : Nat)
    (events : List (Option String)) (hn : events.length = n) (hpos : 0 < n) :
    (aggRun (aggInit n) events).resolved = some (events.findSome? id) ∧
    (∀ k, k < n → (aggRun (aggInit n) (events.take k)).resolved = none) := by
  constructor
  · have hres := aggRun_resolves events (aggInit n)
      (by simpa [aggInit] using hn) (by simpa [aggInit] using hpos)
    rw [hres, aggRun_firstError]
    rfl
  · intro k hk
    have hlt : (events.take k).length < (aggInit n).pending := by
      simp [aggInit, List.length_take]
      omega
    exact aggRun_resolved_of_lt (events.take k) (aggInit n) hlt

theorem claim_C2_completion_aggregation_witness :
    (aggRun (aggInit 3) [none, some "efirst", some "elater"]).resolved =
      some ([none, some "efirst", some "elater"].findSome? id) ∧
    (∀ k, k < 3 →
      (aggRun (aggInit 3)
        ([none, some "efirst", some "elater"].take k)).resolved = none) :=
  claim_C2_completion_aggregation 3 [none, some "efirst", some "elater"]
    (by rfl) (by decide)

/-! ### Error propagation (`ExecNode::ErrorReceived`) -/

/-- Modelled from the spec: a node receiving an error forwards it to every
one of its immediate outputs, one call per successor, and returns normally
(it does not itself terminate the process). -/
def errorReceived (g : Graph) (n : NodeId) (e : String) :
    List (NodeId × String) :=
  (outputsOf g n).map (fun m => (m, e))

/-- Claim C6: `ErrorReceived` forwards the received error to every one of
the node's immediate outputs, exactly once each, unchanged (never
swallowed); and an error carried by any node's completion status makes the
plan's aggregate completion signal resolve with an error. -/
theorem claim_C6_error_forwarding (g : Graph) (n : NodeId) (e : String) :
    (∀ m ∈ outputsOf g n, (m, e) ∈ errorReceived g n e) ∧
    (∀ p2 ∈ errorReceived g n e, p2.1 ∈ outputsOf g n ∧ p2.2 = e) ∧
    (errorReceived g n e).length = (outputsOf g n).length ∧
    (∀ (k : Nat) (events : List (Option String)), events.length = k →
      0 < k → some e ∈ events →
      ∃ e2, (aggRun (aggInit k) events).resolved = some (some e2)) := by
  refine ⟨?_, ?_, by simp [errorReceived], ?_⟩
  · intro m hm
    simp only [errorReceived, List.mem_map]
    exact ⟨m, hm, rfl⟩
  · intro p2 hp2
    simp only [errorReceived, List.mem_map] at hp2
    obtain ⟨m, hm, rfl⟩ := hp2
    exact ⟨hm, rfl⟩
  · intro k events hlen hpos hmem
    have hres := aggRun_resolves events (aggInit k)
      (by simpa [aggInit] using hlen) (by simpa [aggInit] using hpos)
    rw [hres, aggRun_firstError]
    cases hf : events.findSome? id with
    | some e2 => exact ⟨e2, rfl⟩
    | none =>
      rw [List.findSome?_eq_none_iff] at hf
      have := hf (some e) hmem
      cases this

theorem claim_C6_error_forwarding_witness :
    (1, "err") ∈ errorReceived gEx 0 "err" ∧
    (∃ e2, (aggRun (aggInit 2) [none, some "err"]).resolved = some (some e2)) :=
  ⟨(claim_C6_error_forwarding gEx 0 "err").1 1 (by decide),
    (claim_C6_error_forwarding gEx 0 "err").2.2.2 2 [none, some "err"]
      (by rfl) (by decide) (by decide)⟩

/-! ### Factory registry (`ExecFactoryRegistry`, header lines 251–262) -/

/-- Status codes raised by the registry. -/
inductive RegistryError
  | notFound (name : String)
  | alreadyExists (name : String)
deriving DecidableEq

/-- Modelled from the spec: a name-keyed, add-only table of node factories
(`ExecFactoryRegistry`); `F` is the factory type. -/
structure ExecFactoryRegistry (F : Type) where
  entries : List (String × F)

/-- Modelled from the spec: `ExecFactoryRegistry::GetFactory` — raises a
not-found error when `factory_name` is not in the registry. -/
def GetFactory {F : Type} (r : ExecFactoryRegistry F) (factory_name : String) :
    Except RegistryError F :=
  match r.entries.find? (fun kv => kv.1 == factory_name) with
  | some kv => .ok kv.2
  | none => .error (.notFound factory_name)

/-- Modelled from the spec: `ExecFactoryRegistry::AddFactory` — raises an
already-exists error when `factory_name` is already taken, otherwise
stores the entry (entries are add-only; there is no removal). -/
def AddFactory {F : Type} (r : ExecFactoryRegistry F) (factory_name : String)
    (factory : F) : Except RegistryError (ExecFactoryRegistry F) :=
  match r.entries.find? (fun kv => kv.1 == factory_name) with
  | some _ => .error (.alreadyExists factory_name)
  | none => .ok ⟨r.entries ++ [(factory_name, factory)]⟩

theorem find?_append_none {α : Type} (p : α → Bool) (l₁ l₂ : List α)
    (h : l₁.find? p = none) : (l₁ ++ l₂).find? p = l₂.find? p := by
  induction l₁ with
  | nil => rfl
  | cons a l ih =>
    cases hpa : p a
    · rw [List.find?_cons_of_neg _ (by simp [hpa])] at h
      rw [List.cons_append, List.find?_cons_of_neg _ (by simp [hpa])]
      exact ih h
    · rw [List.find?_cons_of_pos _ hpa] at h
      cases h

theorem find?_key_eq_none {F : Type} (entries : List (String × F))
    (name : String) :
    entries.find? (fun kv => kv.1 == name) = none ↔
      name ∉ entries.map Prod.fst := by
  rw [List.find?_eq_none]
  constructor
  · intro h hmem
    obtain ⟨kv, hkv, he⟩ := List.mem_map.mp hmem
    exact h kv hkv (by simpa using he)
  · intro h kv hkv he
    exact h (List.mem_map.mpr ⟨kv, hkv, by simpa using he⟩)

theorem AddFactory_of_find_some {F : Type} (r : ExecFactoryRegistry F)
    (name : String) (f : F) (kv : String × F)
    (h : r.entries.find? (fun kv => kv.1 == name) = some kv) :
    AddFactory r name f = .error (.alreadyExists name) := by
  unfold AddFactory
  rw [h]

theorem AddFactory_of_find_none {F : Type} (r : ExecFactoryRegistry F)
    (name : String) (f : F)
    (h : r.entries.find? (fun kv => kv.1 == name) = none) :
    AddFactory r name f = .ok ⟨r.entries ++ [(name, f)]⟩ := by
  unfold AddFactory
  rw [h]

theorem GetFactory_of_find_some {F : Type} (r : ExecFactoryRegistry F)
    (name : String) (kv : String × F)
    (h : r.entries.find? (fun kv => kv.1 == name) = some kv) :
    GetFactory r name = .ok kv.2 := by
  unfold GetFactory
  rw [h]

theorem GetFactory_of_find_none {F : Type} (r : ExecFactoryRegistry F)
    (name : String)
    (h : r.entries.find? (fun kv => kv.1 == name) = none) :
    GetFactory r name = .error (.notFound name) := by
  unfold GetFactory
  rw [h]

/-- Claim C9: `AddFactory` fails with an already-exists error exactly when
the name is already present, and otherwise appends the entry, which
`GetFactory` then retrieves for the life of the registry; `GetFactory`
fails with a not-found error exactly when no entry under the name was
added. -/
theorem claim_C9_registry {F : Type} (r : ExecFactoryRegistry F)
    (name : String) (f : F) :
    (AddFactory r name f = .error (.alreadyExists name) ↔
      name ∈ r.entries.map Prod.fst) ∧
    (name ∉ r.entries.map Prod.fst →
      AddFactory r name f = .ok ⟨r.entries ++ [(name, f)]⟩ ∧
      ∀ r2, AddFactory r name f = .ok r2 → GetFactory r2 name = .ok f) ∧
    (GetFactory r name = .error (.notFound name) ↔
      name ∉ r.entries.map Prod.fst) := by
  refine ⟨?_, ?_, ?_⟩
  · rcases hfind : r.entries.find? (fun kv => kv.1 == name) with _ | kv
    · rw [AddFactory_of_find_none r name f hfind]
      exact iff_of_false (by simp) ((find?_key_eq_none r.entries name).mp hfind)
    · rw [AddFactory_of_find_some r name f kv hfind]
      refine iff_of_true rfl ?_
      have h1 := List.find?_some hfind
      have h2 := List.mem_of_find?_eq_some hfind
      exact List.mem_map.mpr ⟨kv, h2, by simpa using h1⟩
  · intro habs
    have hfind := (find?_key_eq_none r.entries name).mpr habs
    have hadd := AddFactory_of_find_none r name f hfind
    refine ⟨hadd, ?_⟩
    intro r2 h2
    rw [hadd] at h2
    have hr2 : r2 = ⟨r.entries ++ [(name, f)]⟩ := by
      injection h2 with h3
      exact h3.symm
    subst hr2
    have hfind2 : (r.entries ++ [(name, f)]).find? (fun kv => kv.1 == name) =
        some (name, f) := by
      rw [find?_append_none _ _ _ hfind]
      rw [List.find?_cons_of_pos _ (by simp)]
    exact GetFactory_of_find_some ⟨r.entries ++ [(name, f)]⟩ name (name, f) hfind2
  · rcases hfind : r.entries.find? (fun kv => kv.1 == name) with _ | kv
    · rw [GetFactory_of_find_none r name hfind]
      exact iff_of_true rfl ((find?_key_eq_none r.entries name).mp hfind)
    · rw [GetFactory_of_find_some r name kv hfind]
      refine iff_of_false (by simp) ?_
      rw [not_not]
      have h1 := List.find?_some hfind
      have h2 := List.mem_of_find?_eq_some hfind
      exact List.mem_map.mpr ⟨kv, h2, by simpa using h1⟩

theorem claim_C9_registry_witness :
    (AddFactory (⟨[("filter", 7)]⟩ : ExecFactoryRegistry Nat) "filter" 9 =
      .error (.alreadyExists "filter")) ∧
    (AddFactory (⟨[("filter", 7)]⟩ : ExecFactoryRegistry Nat) "project" 9 =
      .ok ⟨[("filter", 7), ("project", 9)]⟩) ∧
    (GetFactory (⟨[("filter", 7)]⟩ : ExecFactoryRegistry Nat) "project" =
      .error (.notFound "project")) :=
  ⟨(claim_C9_registry ⟨[("filter", 7)]⟩ "filter" 9).1.mpr (by decide),
    ((claim_C9_registry ⟨[("filter", 7)]⟩ "project" 9).2.1 (by decide)).1,
    (claim_C9_registry ⟨[("filter", 7)]⟩ "project" 9).2.2.mpr (by decide)⟩

/-! ### Generic construction entry point (`MakeExecNode`, header lines 269–275) -/

/-- `MakeExecNode` as written inline in the header: look the factory up in
the registry (propagating a lookup failure, as `ARROW_ASSIGN_OR_RAISE`
does), then invoke it on `(plan, options)` and return its result.  The
result type keeps registry errors and factory errors `E` apart. -/
def MakeExecNode {P O N E : Type} (factory_name : String) (plan : P)
    (options : O) (registry : ExecFactoryRegistry (P → O → Except E N)) :
    Except (RegistryError ⊕ E) N :=
  match GetFactory registry factory_name with
  | .error err => .error (.inl err)
  | .ok factory =>
    match factory plan options with
    | .error err => .error (.inr err)
    | .ok node => .ok node

/-- Claim C8: `MakeExecNode` first performs the registry lookup; a lookup
failure is surfaced unchanged and the factory is never invoked; on a
successful lookup the result is exactly the factory's result on
`(plan, options)`, so construction succeeds iff both steps succeed. -/
theorem claim_C8_make_exec_node {P O N E : Type} (name : String) (plan : P)
    (options : O) (registry : ExecFactoryRegistry (P → O → Except E N)) :
    (∀ err, GetFactory registry name = .error err →
      MakeExecNode name plan options registry = .error (.inl err)) ∧
    (∀ f, GetFactory registry name = .ok f →
      (∀ node, f plan options = .ok node →
        MakeExecNode name plan options registry = .ok node) ∧
      (∀ err, f plan options = .error err →
        MakeExecNode name plan options registry = .error (.inr err))) ∧
    ((∃ node, MakeExecNode name plan options registry = .ok node) ↔
      (∃ f node, GetFactory registry name = .ok f ∧
        f plan options = .ok node)) := by
  have hget_err : ∀ err, GetFactory registry name = .error err →
      MakeExecNode name plan options registry = .error (.inl err) := by
    intro err h
    unfold MakeExecNode
    rw [h]
  have hget_ok : ∀ f, GetFactory registry name = .ok f →
      MakeExecNode name plan options registry =
        match f plan options with
        | .error err => .error (Sum.inr err)
        | .ok node => .ok node := by
    intro f h
    unfold MakeExecNode
    rw [h]
  refine ⟨hget_err, ?_, ?_⟩
  · intro f h
    rw [hget_ok f h]
    constructor
    · intro node hn
      rw [hn]
    · intro err he
      rw [he]
  · rcases hg : GetFactory registry name with err | f
    · rw [hget_err err hg]
      constructor
      · rintro ⟨node, hn⟩
        cases hn
      · rintro ⟨f, node, hf, -⟩
        cases hf
    · rw [hget_ok f hg]
      constructor
      · rintro ⟨node, hn⟩
        rcases hfo : f plan options with err2 | node2
        · rw [hfo] at hn
          cases hn
        · exact ⟨f, node2, rfl, hfo⟩
      · rintro ⟨f2, node, hf2, hn⟩
        have hff : f = f2 := by injection hf2
        subst hff
        rw [hn]
        exact ⟨node, rfl⟩

/-- A concrete registry of `Unit → Unit → Except String Unit` factories. -/
def regEx : ExecFactoryRegistry (Unit → Unit → Except String Unit) :=
  ⟨[("filter", fun _ _ => .ok ())]⟩

theorem claim_C8_make_exec_node_witness :
    MakeExecNode "project" () () regEx =
      .error (.inl (.notFound "project")) ∧
    MakeExecNode "filter" () () regEx = .ok () :=
  ⟨(claim_C8_make_exec_node "project" () () regEx).1
      (.notFound "project") (by rfl),
    ((claim_C8_make_exec_node "filter" () () regEx).2.1
      (fun _ _ => .ok ()) (by rfl)).1 () (by rfl)⟩

/-! ### Node ownership (`ExecPlan::AddNode` / `EmplaceNode`, header lines 47–55) -/

/-- The heap of constructed nodes: a pointer is an index into the store. -/
structure NodeHeap (Node : Type) where
  store : List Node

/-- `new Node{args...}`: allocate the constructed node, returning the new
heap and the node's pointer (`node.get()`). -/
def allocNode {Node : Type} (h : NodeHeap Node) (node : Node) :
    NodeHeap Node × Nat :=
  (⟨h.store ++ [node]⟩, h.store.length)

/-- The plan's owned node set, as pointers (the plan owns its nodes). -/
structure PlanNodes where
  owned : List Nat

/-- `ExecPlan::AddNode`: registers a constructed node into the plan's
owned set, returning the non-owning handle to the registered node. -/
def AddNode (p : PlanNodes) (ptr : Nat) : PlanNodes × Nat :=
  (⟨p.owned ++ [ptr]⟩, ptr)

/-- `ExecPlan::EmplaceNode` as written in the header: construct the node,
capture `out = node.get()`, hand the node to the plan via `AddNode`, and
return `out`. -/
def EmplaceNode {Node : Type} (h : NodeHeap Node) (p : PlanNodes)
    (node : Node) : NodeHeap Node × PlanNodes × Nat :=
  let alloc := allocNode h node
  let out := alloc.2
  let added := AddNode p alloc.2
  (alloc.1, added.1, out)

/-- Claim C10: `EmplaceNode` registers the constructed node into the plan
via `AddNode` and returns a handle equal to the handle of the node it
registered — the returned pointer aliases exactly the node now owned by
the plan (dereferencing it in the new heap yields the constructed node). -/
theorem claim_C10_emplace_node {Node : Type} (h : NodeHeap Node)
    (p : PlanNodes) (node : Node) :
    (EmplaceNode h p node).2.1.owned =
      p.owned ++ [(EmplaceNode h p node).2.2] ∧
    (EmplaceNode h p node).2.2 = (AddNode p (allocNode h node).2).2 ∧
    (EmplaceNode h p node).1.store[(EmplaceNode h p node).2.2]? =
      some node := by
  refine ⟨rfl, rfl, ?_⟩
  show (h.store ++ [node])[h.store.length]? = some node
  exact List.getElem?_concat_length h.store node

end ArrowExec
